import Mathlib

/-!
Verification of the rock-paper-scissors backend (src/backend/ml.py and
src/backend/app.py) against its specification.

Moves are modelled as strings, exactly as in the Python source.  Python
dicts are modelled as insertion-ordered association lists, so that both
lookup semantics and iteration order (which `max` depends on) are
faithful.  The two `random.choice(MOVES)` call sites are modelled by an
explicit index parameter `r : Fin 3`: the value the random number
generator would pick.
-/

/-- The move alphabet, in the source's fixed enumeration order
(`MOVES = ["rock", "paper", "scissors"]` in ml.py). -/
def MOVES : List String := ["rock", "paper", "scissors"]

/-- `beats move` returns the move that beats the given move (ml.py `beats`).
Note the catch-all: any string other than "rock" and "paper" maps to "rock". -/
def beats (move : String) : String :=
  if move = "rock" then "paper"
  else if move = "paper" then "scissors"
  else "rock"

/-- Lookup in an insertion-ordered association list; models Python
`dict.get(key)` (returns `None` when absent, never inserts). -/
def assocGet {α β : Type} [DecidableEq α] : List (α × β) → α → Option β
  | [], _ => none
  | (k, v) :: rest, a => if k = a then some v else assocGet rest a

/-- The keys of an association list, in insertion (iteration) order;
models iterating a Python dict. -/
def keysOf (l : List (String × Nat)) : List String :=
  l.map Prod.fst

/-- Increment the count for `m` in an inner counts dict; models
`d[m] += 1` on a `defaultdict(int)`: an absent key is created (at the
end, per dict insertion order) starting from 0. -/
def bumpCounts : List (String × Nat) → String → List (String × Nat)
  | [], m => [(m, 1)]
  | (k, v) :: rest, m =>
      if k = m then (k, v + 1) :: rest else (k, v) :: bumpCounts rest m

/-- Increment `transitions[state][m]`; models the nested
`defaultdict(lambda: defaultdict(int))` write in `record_user_move`:
an absent state key is created at the end with a fresh inner dict. -/
def bumpTrans : List (List String × List (String × Nat)) → List String → String →
    List (List String × List (String × Nat))
  | [], s, m => [(s, [(m, 1)])]
  | (k, c) :: rest, s, m =>
      if k = s then (k, bumpCounts c m) :: rest else (k, c) :: bumpTrans rest s m

/-- The count stored at `transitions[k][m]`, reading absent entries as 0. -/
def getCount (t : List (List String × List (String × Nat)))
    (k : List String) (m : String) : Nat :=
  match assocGet t k with
  | none => 0
  | some c => (assocGet c m).getD 0

/-- Python's `max(iterable, key=f)` starting from current best `acc`:
keeps the first maximum encountered (later elements replace the best
only when strictly greater). -/
def pyMaxGo (f : String → Nat) (acc : String) : List String → String
  | [] => acc
  | y :: ys => if f acc < f y then pyMaxGo f y ys else pyMaxGo f acc ys

/-- Python's `max(l, key=f)` for a nonempty list `l`: the first element
attaining the maximal `f`-value, in iteration order.  (Python raises on
an empty list; both call sites in the source guard against that, so the
`[]` case is unreachable junk.) -/
def pyMax (f : String → Nat) : List String → String
  | [] => ""
  | x :: xs => pyMaxGo f x xs

/-- The model state of ml.py's `MarkovPredictor` dataclass: the window
length `order`, the bounded history deque (time-ascending list, maxlen
50), and the nested transition-count dict. -/
structure MarkovPredictor where
  order : Nat
  history : List String
  transitions : List (List String × List (String × Nat))
  deriving DecidableEq

/-- `MarkovPredictor(order=o)`: fresh model with empty history and empty
transition table (the dataclass field factories). -/
def mkPredictor (o : Nat) : MarkovPredictor :=
  ⟨o, [], []⟩

/-- Appending to a `deque(maxlen=50)`: the new element goes on the right
and the leftmost elements are dropped so the length never exceeds 50. -/
def dequeAppend (h : List String) (m : String) : List String :=
  (h ++ [m]).drop ((h ++ [m]).length - 50)

/-- Python `list(self.history)[-self.order:]`: the last `order` elements
of the history.  Mirrors the slice's edge case: `[-0:]` is the whole
list. -/
def lastSlice (n : Nat) (h : List String) : List String :=
  if n = 0 then h else h.drop (h.length - n)

/-- ml.py `record_user_move`: ignore symbols outside `MOVES`; otherwise,
when the history already holds at least `order` moves, bump the
transition count for (last `order` moves → new move), then append the
new move to the bounded history. -/
def record_user_move (p : MarkovPredictor) (user_move : String) : MarkovPredictor :=
  if user_move ∈ MOVES then
    let ts :=
      if p.order ≤ p.history.length then
        bumpTrans p.transitions (lastSlice p.order p.history) user_move
      else p.transitions
    ⟨p.order, dequeAppend p.history user_move, ts⟩
  else p

/-- Fold a list of observed moves into the model, oldest first. -/
def runRecords (p : MarkovPredictor) (ms : List String) : MarkovPredictor :=
  ms.foldl record_user_move p

/-- The value the RNG draw `random.choice(MOVES)` produces when the
generator picks index `r`. -/
def randomChoice (r : Fin 3) : String :=
  MOVES.getD r.val "rock"

/-- The frequency fallback of `predict_next_user_move`: count each move
of `MOVES` across the entire history (`freq = {m: 0 for m in MOVES}`
then one pass over the history) and take the first maximum in the fixed
move enumeration order; if the total is zero, fall back to a random
choice. -/
def fallbackFreq (h : List String) (r : Fin 3) : String :=
  if (MOVES.map fun m => h.count m).sum ≠ 0 then
    pyMax (fun m => h.count m) MOVES
  else randomChoice r

/-- ml.py `predict_next_user_move`, with the post-call model state
threaded through explicitly (the Python method reads `self` and could
in principle mutate it; the pair's second component is the state after
the call).  Cold model: random guess.  Otherwise look the current state
key up with `dict.get` (which never inserts); a missing or empty entry
falls back to overall frequency, a populated entry yields the key with
the highest count, first maximum in the dict's insertion order. -/
def predict_next_user_move (p : MarkovPredictor) (r : Fin 3) :
    String × MarkovPredictor :=
  if p.history.length < p.order then
    (randomChoice r, p)
  else
    match assocGet p.transitions (lastSlice p.order p.history) with
    | none => (fallbackFreq p.history r, p)
    | some nextCounts =>
        if nextCounts = [] then (fallbackFreq p.history r, p)
        else (pyMax (fun m => (assocGet nextCounts m).getD 0) (keysOf nextCounts), p)

/-- ml.py `choose_ai_move`: predict the user's next move and counter it;
returns ((ai_move, predicted_user_move), state after the call). -/
def choose_ai_move (p : MarkovPredictor) (r : Fin 3) :
    (String × String) × MarkovPredictor :=
  let pr := predict_next_user_move p r
  ((beats pr.1, pr.1), pr.2)

/-- app.py `outcome`: win/lose/draw from the user's perspective. -/
def outcome (user_move : String) (ai_move : String) : String :=
  if user_move = ai_move then "draw"
  else if (user_move = "rock" ∧ ai_move = "scissors") ∨
          (user_move = "paper" ∧ ai_move = "rock") ∨
          (user_move = "scissors" ∧ ai_move = "paper") then "win"
  else "lose"

/-- The JSON body of app.py's `/play` response. -/
structure PlayResponse where
  user_move : String
  ai_move : String
  result : String
  predicted_next_user_move : String
  history_len : Nat
  learned_states : Nat
  deriving DecidableEq

/-- app.py `play`: reject an out-of-alphabet move (`none` models the
HTTP 400), otherwise let the AI choose from the current model, compute
the round result, record the user's move, and report the post-record
history length and distinct-state-key count. -/
def play (p : MarkovPredictor) (user_move : String) (r : Fin 3) :
    Option (PlayResponse × MarkovPredictor) :=
  if user_move ∈ MOVES then
    let c := choose_ai_move p r
    let ai_move := (c.1).1
    let predicted := (c.1).2
    let res := outcome user_move ai_move
    let p2 := record_user_move c.2 user_move
    some (⟨user_move, ai_move, res, predicted,
           p2.history.length, p2.transitions.length⟩, p2)
  else none

/-- Well-formed model state, as the spec's data model prescribes: the
history is a sequence of Moves and every inner transition-count key is a
Move. -/
def WF (p : MarkovPredictor) : Prop :=
  (∀ m ∈ p.history, m ∈ MOVES) ∧
  ∀ kc ∈ p.transitions, ∀ mn ∈ kc.2, mn.1 ∈ MOVES

/-- `x` is the first maximum of `f` over `l` in iteration order: it is a
maximiser, and every element strictly before its first occurrence has a
strictly smaller value. -/
def isFirstMax (f : String → Nat) (l : List String) (x : String) : Prop :=
  x ∈ l ∧ (∀ y ∈ l, f y ≤ f x) ∧
    ∀ l1 l2, l = l1 ++ x :: l2 → x ∉ l1 → ∀ y ∈ l1, f y < f x

/-- A warm order-3 model: three rocks recorded from scratch. -/
def pWarm : MarkovPredictor :=
  runRecords (mkPredictor 3) ["rock", "rock", "rock"]

/-- A warm order-3 model whose current state key has no recorded counts:
history is (rock, rock, rock, paper), so the key (rock, rock, paper) is
absent from the transition table. -/
def pW4 : MarkovPredictor :=
  runRecords (mkPredictor 3) ["rock", "rock", "rock", "paper"]

/-- An order-3 model whose history is at capacity (50 entries). -/
def pCap : MarkovPredictor :=
  ⟨3, List.replicate 50 "rock", []⟩

theorem pyMaxGo_mem (f : String → Nat) (acc : String) (l : List String) :
    pyMaxGo f acc l = acc ∨ pyMaxGo f acc l ∈ l := by
  induction l generalizing acc with
  | nil => exact Or.inl rfl
  | cons y ys ih =>
    unfold pyMaxGo
    by_cases h : f acc < f y
    · rw [if_pos h]
      rcases ih y with h1 | h1
      · exact Or.inr (by rw [h1]; exact List.mem_cons_self y ys)
      · exact Or.inr (List.mem_cons_of_mem y h1)
    · rw [if_neg h]
      rcases ih acc with h1 | h1
      · exact Or.inl h1
      · exact Or.inr (List.mem_cons_of_mem y h1)

theorem pyMaxGo_le (f : String → Nat) (acc : String) (l : List String) :
    f acc ≤ f (pyMaxGo f acc l) ∧ ∀ y ∈ l, f y ≤ f (pyMaxGo f acc l) := by
  induction l generalizing acc with
  | nil => exact ⟨le_refl _, by simp⟩
  | cons y ys ih =>
    unfold pyMaxGo
    by_cases h : f acc < f y
    · rw [if_pos h]
      obtain ⟨h1, h2⟩ := ih y
      refine ⟨le_of_lt (lt_of_lt_of_le h h1), ?_⟩
      intro z hz
      rcases List.mem_cons.mp hz with rfl | hz'
      · exact h1
      · exact h2 z hz'
    · rw [if_neg h]
      obtain ⟨h1, h2⟩ := ih acc
      refine ⟨h1, ?_⟩
      intro z hz
      rcases List.mem_cons.mp hz with rfl | hz'
      · exact le_trans (not_lt.mp h) h1
      · exact h2 z hz'

theorem pyMaxGo_acc_lt (f : String → Nat) (acc : String) (l : List String) :
    pyMaxGo f acc l = acc ∨ f acc < f (pyMaxGo f acc l) := by
  induction l generalizing acc with
  | nil => exact Or.inl rfl
  | cons y ys ih =>
    unfold pyMaxGo
    by_cases h : f acc < f y
    · rw [if_pos h]
      refine Or.inr ?_
      rcases ih y with h1 | h1
      · rw [h1]; exact h
      · exact lt_trans h h1
    · rw [if_neg h]
      exact ih acc

theorem pyMaxGo_first (f : String → Nat) (l : List String) :
    ∀ acc l1 l2, acc :: l = l1 ++ pyMaxGo f acc l :: l2 →
      pyMaxGo f acc l ∉ l1 → ∀ y ∈ l1, f y < f (pyMaxGo f acc l) := by
  induction l with
  | nil =>
    intro acc l1 l2 hdec _ y hy
    simp only [pyMaxGo] at hdec
    rcases l1 with _ | ⟨z, l1'⟩
    · exact absurd hy (List.not_mem_nil y)
    · simp only [List.cons_append] at hdec
      injection hdec with h1 h2
      exact absurd h2 (by simp)
  | cons w ws ih =>
    intro acc l1 l2 hdec hnot y hy
    have hstep : pyMaxGo f acc (w :: ws) =
        if f acc < f w then pyMaxGo f w ws else pyMaxGo f acc ws := rfl
    by_cases h : f acc < f w
    · have hr : pyMaxGo f acc (w :: ws) = pyMaxGo f w ws := by
        rw [hstep, if_pos h]
      rw [hr] at hdec hnot ⊢
      rcases l1 with _ | ⟨z, l1'⟩
      · exact absurd hy (List.not_mem_nil y)
      · simp only [List.cons_append] at hdec
        injection hdec with hz htl
        subst hz
        rcases List.mem_cons.mp hy with rfl | hy'
        · exact lt_of_lt_of_le h (pyMaxGo_le f w ws).1
        · have hnot' : pyMaxGo f w ws ∉ l1' :=
            fun hmem => hnot (List.mem_cons_of_mem _ hmem)
          exact ih w l1' l2 htl hnot' y hy'
    · have hr : pyMaxGo f acc (w :: ws) = pyMaxGo f acc ws := by
        rw [hstep, if_neg h]
      rw [hr] at hdec hnot ⊢
      rcases l1 with _ | ⟨z, l1'⟩
      · exact absurd hy (List.not_mem_nil y)
      · simp only [List.cons_append] at hdec
        injection hdec with hz htl
        subst hz
        have hne : pyMaxGo f acc ws ≠ acc := by
          intro he
          exact hnot (by rw [he]; exact List.mem_cons_self _ _)
        have hacc : f acc < f (pyMaxGo f acc ws) := by
          rcases pyMaxGo_acc_lt f acc ws with h1 | h1
          · exact absurd h1 hne
          · exact h1
        rcases List.mem_cons.mp hy with rfl | hy'
        · exact hacc
        · rcases l1' with _ | ⟨u, l1''⟩
          · exact absurd hy' (List.not_mem_nil y)
          · simp only [List.cons_append] at htl
            injection htl with hu htl2
            subst hu
            rcases List.mem_cons.mp hy' with rfl | hy''
            · exact lt_of_le_of_lt (not_lt.mp h) hacc
            · have hdec2 : acc :: ws = (acc :: l1'') ++ pyMaxGo f acc ws :: l2 := by
                simp only [List.cons_append]
                exact congrArg (List.cons acc) htl2
              have hnot2 : pyMaxGo f acc ws ∉ acc :: l1'' := by
                intro hmem
                rcases List.mem_cons.mp hmem with he | hmem'
                · exact hne he
                · exact hnot
                    (List.mem_cons_of_mem _ (List.mem_cons_of_mem _ hmem'))
              exact ih acc (acc :: l1'') l2 hdec2 hnot2 y (List.mem_cons_of_mem _ hy'')

theorem pyMax_isFirstMax (f : String → Nat) (l : List String) (hne : l ≠ []) :
    isFirstMax f l (pyMax f l) := by
  rcases l with _ | ⟨x, xs⟩
  · exact absurd rfl hne
  · have hpm : pyMax f (x :: xs) = pyMaxGo f x xs := rfl
    rw [hpm]
    refine ⟨?_, ?_, ?_⟩
    · rcases pyMaxGo_mem f x xs with h | h
      · rw [h]; exact List.mem_cons_self _ _
      · exact List.mem_cons_of_mem _ h
    · intro y hy
      rcases List.mem_cons.mp hy with h1 | hy'
      · rw [h1]
        exact (pyMaxGo_le f x xs).1
      · exact (pyMaxGo_le f x xs).2 y hy'
    · exact fun l1 l2 => pyMaxGo_first f xs x l1 l2

theorem assocGet_mem {α β : Type} [DecidableEq α] (l : List (α × β)) (a : α) (b : β)
    (h : assocGet l a = some b) : (a, b) ∈ l := by
  induction l with
  | nil => simp [assocGet] at h
  | cons kv rest ih =>
    obtain ⟨k, v⟩ := kv
    simp only [assocGet] at h
    by_cases hk : k = a
    · rw [if_pos hk] at h
      injection h with h1
      rw [← hk, ← h1]
      exact List.mem_cons_self _ _
    · rw [if_neg hk] at h
      exact List.mem_cons_of_mem _ (ih h)

theorem bumpCounts_get (c : List (String × Nat)) (m x : String) :
    (assocGet (bumpCounts c m) x).getD 0 =
      (assocGet c x).getD 0 + (if x = m then 1 else 0) := by
  induction c with
  | nil =>
    by_cases h : m = x
    · rw [← h]
      simp [bumpCounts, assocGet]
    · have h2 : ¬ x = m := fun hh => h hh.symm
      simp [bumpCounts, assocGet, h, h2]
  | cons kv rest ih =>
    obtain ⟨k, v⟩ := kv
    by_cases hkm : k = m
    · by_cases hkx : k = x
      · rw [← hkm, ← hkx]
        simp [bumpCounts, assocGet]
      · have h2 : ¬ x = m := fun hh => hkx (hkm.trans hh.symm)
        have h3 : ¬ m = x := fun hh => h2 hh.symm
        simp [bumpCounts, assocGet, hkm, hkx, h2, h3]
    · by_cases hkx : k = x
      · have h2 : ¬ x = m := fun hh => hkm (hkx.trans hh)
        have h3 : ¬ m = x := fun hh => h2 hh.symm
        simp [bumpCounts, assocGet, hkm, hkx, h2, h3]
      · simp [bumpCounts, assocGet, hkm, hkx, ih]

theorem bumpTrans_getCount (t : List (List String × List (String × Nat)))
    (s : List String) (m : String) (k : List String) (x : String) :
    getCount (bumpTrans t s m) k x =
      getCount t k x + (if k = s ∧ x = m then 1 else 0) := by
  induction t with
  | nil =>
    by_cases hks : k = s
    · rw [← hks]
      by_cases hxm : x = m
      · rw [← hxm]
        simp [getCount, bumpTrans, assocGet]
      · have h2 : ¬ m = x := fun hh => hxm hh.symm
        simp [getCount, bumpTrans, assocGet, hxm, h2]
    · have h2 : ¬ s = k := fun hh => hks hh.symm
      simp [getCount, bumpTrans, assocGet, hks, h2]
  | cons kc rest ih =>
    obtain ⟨a, c⟩ := kc
    by_cases has : a = s
    · by_cases hak : a = k
      · rw [← has, hak]
        simp only [getCount, bumpTrans, if_pos rfl, assocGet, and_true, true_and]
        exact bumpCounts_get c m x
      · have h2 : ¬ k = s := fun hh => hak (has.trans hh.symm)
        have h3 : ¬ s = k := fun hh => h2 hh.symm
        simp [getCount, bumpTrans, assocGet, has, hak, h2, h3]
    · by_cases hak : a = k
      · have h2 : ¬ (k = s ∧ x = m) := fun hh => has (hak.trans hh.1)
        have h3 : ¬ k = s := fun hh => has (hak.trans hh)
        simp [getCount, bumpTrans, assocGet, has, hak, h2, h3]
      · simp only [getCount, bumpTrans, if_neg has, assocGet, if_neg hak]
        exact ih

theorem record_user_move_invalid (p : MarkovPredictor) (s : String)
    (hs : s ∉ MOVES) : record_user_move p s = p := by
  unfold record_user_move
  rw [if_neg hs]

theorem record_user_move_valid_eq (p : MarkovPredictor) (m : String)
    (hm : m ∈ MOVES) :
    record_user_move p m =
      ⟨p.order, dequeAppend p.history m,
        if p.order ≤ p.history.length then
          bumpTrans p.transitions (lastSlice p.order p.history) m
        else p.transitions⟩ := by
  unfold record_user_move
  rw [if_pos hm]

theorem dequeAppend_length (h : List String) (m : String) :
    (dequeAppend h m).length = min (h.length + 1) 50 := by
  unfold dequeAppend
  rw [List.length_drop]
  simp only [List.length_append, List.length_cons, List.length_nil]
  omega

theorem record_history_le (p : MarkovPredictor) (m : String)
    (hp : p.history.length ≤ 50) : (record_user_move p m).history.length ≤ 50 := by
  by_cases hm : m ∈ MOVES
  · rw [record_user_move_valid_eq p m hm]
    rw [show (⟨p.order, dequeAppend p.history m, _⟩ : MarkovPredictor).history
          = dequeAppend p.history m from rfl]
    rw [dequeAppend_length]
    omega
  · rw [record_user_move_invalid p m hm]
    exact hp

theorem runRecords_history_le (ms : List String) (p : MarkovPredictor)
    (hp : p.history.length ≤ 50) : (runRecords p ms).history.length ≤ 50 := by
  induction ms generalizing p with
  | nil => exact hp
  | cons m ms ih => exact ih (record_user_move p m) (record_history_le p m hp)

theorem record_history_valid (p : MarkovPredictor) (m : String)
    (hp : ∀ x ∈ p.history, x ∈ MOVES) :
    ∀ x ∈ (record_user_move p m).history, x ∈ MOVES := by
  by_cases hm : m ∈ MOVES
  · rw [record_user_move_valid_eq p m hm]
    intro x hx
    have hx2 := List.drop_subset _ _ hx
    rcases List.mem_append.mp hx2 with h1 | h1
    · exact hp x h1
    · rw [List.mem_singleton.mp h1]
      exact hm
  · rw [record_user_move_invalid p m hm]
    exact hp

theorem runRecords_history_valid (ms : List String) (p : MarkovPredictor)
    (hp : ∀ x ∈ p.history, x ∈ MOVES) :
    ∀ x ∈ (runRecords p ms).history, x ∈ MOVES := by
  induction ms generalizing p with
  | nil => exact hp
  | cons m ms ih => exact ih _ (record_history_valid p m hp)

theorem record_order (p : MarkovPredictor) (m : String) :
    (record_user_move p m).order = p.order := by
  by_cases hm : m ∈ MOVES
  · rw [record_user_move_valid_eq p m hm]
  · rw [record_user_move_invalid p m hm]

theorem runRecords_order (ms : List String) (p : MarkovPredictor) :
    (runRecords p ms).order = p.order := by
  induction ms generalizing p with
  | nil => rfl
  | cons m ms ih =>
    rw [show runRecords p (m :: ms) = runRecords (record_user_move p m) ms from rfl,
      ih, record_order]

theorem sumFreq_pos (h : List String) (hne : h ≠ [])
    (hv : ∀ x ∈ h, x ∈ MOVES) :
    (MOVES.map fun m => h.count m).sum ≠ 0 := by
  rcases h with _ | ⟨a, t⟩
  · exact absurd rfl hne
  · have ha : a ∈ MOVES := hv a (List.mem_cons_self a t)
    have hc : (a :: t).count a = t.count a + 1 := List.count_cons_self a t
    have hmem : ((a :: t).count a) ∈ (MOVES.map fun m => (a :: t).count m) :=
      List.mem_map_of_mem _ ha
    have hle := List.single_le_sum (fun x _ => Nat.zero_le x) _ hmem
    omega

theorem lastSlice_eq_drop (n : Nat) (h : List String) (hn : 1 ≤ n) :
    lastSlice n h = h.drop (h.length - n) := by
  unfold lastSlice
  rw [if_neg (by omega)]

theorem predict_next_snd (p : MarkovPredictor) (r : Fin 3) :
    (predict_next_user_move p r).2 = p := by
  unfold predict_next_user_move
  by_cases h : p.history.length < p.order
  · rw [if_pos h]
  · rw [if_neg h]
    cases hc : assocGet p.transitions (lastSlice p.order p.history) with
    | none => rfl
    | some counts =>
      show (if counts = [] then (fallbackFreq p.history r, p)
            else (pyMax (fun m => (assocGet counts m).getD 0) (keysOf counts), p)).2 = p
      by_cases hce : counts = []
      · rw [if_pos hce]
      · rw [if_neg hce]

theorem predict_warm (p : MarkovPredictor) (r : Fin 3)
    (hlen : p.order ≤ p.history.length) :
    (predict_next_user_move p r).1 =
      match assocGet p.transitions (lastSlice p.order p.history) with
      | none => fallbackFreq p.history r
      | some nextCounts =>
          if nextCounts = [] then fallbackFreq p.history r
          else pyMax (fun m => (assocGet nextCounts m).getD 0) (keysOf nextCounts) := by
  unfold predict_next_user_move
  rw [if_neg (not_lt.mpr hlen)]
  cases hc : assocGet p.transitions (lastSlice p.order p.history) with
  | none => rfl
  | some counts =>
    show (if counts = [] then (fallbackFreq p.history r, p)
          else (pyMax (fun m => (assocGet counts m).getD 0) (keysOf counts), p)).1 =
        if counts = [] then fallbackFreq p.history r
        else pyMax (fun m => (assocGet counts m).getD 0) (keysOf counts)
    by_cases hce : counts = []
    · rw [if_pos hce, if_pos hce]
    · rw [if_neg hce, if_neg hce]

theorem randomChoice_mem (r : Fin 3) : randomChoice r ∈ MOVES := by
  fin_cases r <;> decide

theorem fallbackFreq_mem (h : List String) (r : Fin 3) : fallbackFreq h r ∈ MOVES := by
  unfold fallbackFreq
  by_cases hs : (MOVES.map fun m => h.count m).sum ≠ 0
  · rw [if_pos hs]
    exact (pyMax_isFirstMax (fun m => h.count m) MOVES (by decide)).1
  · rw [if_neg hs]
    exact randomChoice_mem r

theorem predict_next_mem (p : MarkovPredictor) (r : Fin 3) (hwf : WF p) :
    (predict_next_user_move p r).1 ∈ MOVES := by
  by_cases hcold : p.history.length < p.order
  · unfold predict_next_user_move
    rw [if_pos hcold]
    exact randomChoice_mem r
  · rw [predict_warm p r (not_lt.mp hcold)]
    cases hc : assocGet p.transitions (lastSlice p.order p.history) with
    | none => exact fallbackFreq_mem p.history r
    | some counts =>
      show (if counts = [] then fallbackFreq p.history r
            else pyMax (fun m => (assocGet counts m).getD 0) (keysOf counts)) ∈ MOVES
      by_cases hce : counts = []
      · rw [if_pos hce]
        exact fallbackFreq_mem p.history r
      · rw [if_neg hce]
        have hk : keysOf counts ≠ [] := by
          intro hk0
          exact hce (List.map_eq_nil_iff.mp hk0)
        have hfm := pyMax_isFirstMax (fun m => (assocGet counts m).getD 0) (keysOf counts) hk
        rcases List.mem_map.mp hfm.1 with ⟨mn, hmn, hfst⟩
        rw [← hfst]
        exact hwf.2 _ (assocGet_mem p.transitions _ counts hc) mn hmn

theorem choose_ai_move_fst (p : MarkovPredictor) (r : Fin 3) :
    (choose_ai_move p r).1.1 = beats (predict_next_user_move p r).1 := rfl

theorem choose_ai_move_pred (p : MarkovPredictor) (r : Fin 3) :
    (choose_ai_move p r).1.2 = (predict_next_user_move p r).1 := rfl

theorem choose_ai_move_snd (p : MarkovPredictor) (r : Fin 3) :
    (choose_ai_move p r).2 = p := by
  rw [show (choose_ai_move p r).2 = (predict_next_user_move p r).2 from rfl,
    predict_next_snd]

theorem choose_ai_move_eq (p : MarkovPredictor) (r : Fin 3) :
    choose_ai_move p r =
      ((beats (predict_next_user_move p r).1, (predict_next_user_move p r).1), p) := by
  rw [show choose_ai_move p r =
      ((beats (predict_next_user_move p r).1, (predict_next_user_move p r).1),
        (predict_next_user_move p r).2) from rfl,
    predict_next_snd]

/-- Claim C5: for every pair of valid moves, `outcome` returns "draw" exactly
when the moves are equal, "win" exactly when the user's move defeats the AI's
move under the beats relation (it equals `beats ai_move`), and "lose"
otherwise. -/
theorem outcome_beats_characterisation (u a : String)
    (hu : u ∈ MOVES) (ha : a ∈ MOVES) :
    (outcome u a = "draw" ↔ u = a) ∧
    (outcome u a = "win" ↔ u = beats a) ∧
    (outcome u a = "lose" ↔ (¬ u = a ∧ ¬ u = beats a)) := by
  have hu2 : u = "rock" ∨ u = "paper" ∨ u = "scissors" := by simpa [MOVES] using hu
  have ha2 : a = "rock" ∨ a = "paper" ∨ a = "scissors" := by simpa [MOVES] using ha
  rcases hu2 with rfl | rfl | rfl <;> rcases ha2 with rfl | rfl | rfl <;> decide

theorem outcome_beats_characterisation_witness :
    (outcome "rock" "scissors" = "draw" ↔ ("rock" : String) = "scissors") ∧
    (outcome "rock" "scissors" = "win" ↔ ("rock" : String) = beats "scissors") ∧
    (outcome "rock" "scissors" = "lose" ↔
      (¬ ("rock" : String) = "scissors" ∧ ¬ ("rock" : String) = beats "scissors")) :=
  outcome_beats_characterisation "rock" "scissors" (by decide) (by decide)

/-- Claim C7: for every valid move m, `beats (beats m)` differs from m and
`beats m` is the unique valid move that defeats m, so the beats relation is a
3-cycle. -/
theorem beats_three_cycle (m : String) (hm : m ∈ MOVES) :
    beats (beats m) ≠ m ∧ beats m ∈ MOVES ∧ outcome (beats m) m = "win" ∧
    ∀ x ∈ MOVES, outcome x m = "win" → x = beats m := by
  have hm2 : m = "rock" ∨ m = "paper" ∨ m = "scissors" := by simpa [MOVES] using hm
  rcases hm2 with rfl | rfl | rfl <;> decide

theorem beats_three_cycle_witness : beats (beats "rock") ≠ "rock" :=
  (beats_three_cycle "rock" (by decide)).1

/-- Claim C9: record_observation with a symbol outside the move alphabet is a
silent no-op: the model is returned unchanged (neither the history nor the
transition table changes, and no error is surfaced). -/
theorem record_invalid_noop (p : MarkovPredictor) (s : String) (hs : s ∉ MOVES) :
    record_user_move p s = p ∧
    (record_user_move p s).history = p.history ∧
    (record_user_move p s).transitions = p.transitions := by
  have h := record_user_move_invalid p s hs
  exact ⟨h, by rw [h], by rw [h]⟩

theorem record_invalid_noop_witness :
    record_user_move (mkPredictor 3) "lizard" = mkPredictor 3 :=
  (record_invalid_noop (mkPredictor 3) "lizard" (by decide)).1

/-- Claim C4: predict_next is a pure query: the model state after the call is
exactly the state before it (history and transition table unchanged, its
lookup creates no state key), so iterating it any number of times leaves the
state, and in particular the distinct-state-key count, unchanged. -/
theorem predict_next_pure_query (p : MarkovPredictor) (r : Fin 3) :
    (predict_next_user_move p r).2.history = p.history ∧
    (predict_next_user_move p r).2.transitions = p.transitions ∧
    (∀ n : Nat, (fun q => (predict_next_user_move q r).2)^[n] p = p) ∧
    ∀ n : Nat,
      ((fun q => (predict_next_user_move q r).2)^[n] p).transitions.length =
        p.transitions.length := by
  have h := predict_next_snd p r
  have hiter : ∀ n : Nat, (fun q => (predict_next_user_move q r).2)^[n] p = p := by
    intro n
    induction n with
    | zero => rfl
    | succ k ih =>
      rw [Function.iterate_succ_apply', ih]
      exact predict_next_snd p r
  exact ⟨by rw [h], by rw [h], hiter, fun n => by rw [hiter n]⟩

/-- Claim C6: choose_move returns a pair (selected, predicted) where selected
is the unique valid move that defeats the predicted move under the beats
relation, and the model is not mutated by the call. -/
theorem choose_ai_move_counters_prediction (p : MarkovPredictor) (r : Fin 3)
    (hwf : WF p) :
    (choose_ai_move p r).2 = p ∧
    (choose_ai_move p r).1.1 = beats (choose_ai_move p r).1.2 ∧
    (choose_ai_move p r).1.2 ∈ MOVES ∧
    outcome (choose_ai_move p r).1.1 (choose_ai_move p r).1.2 = "win" ∧
    ∀ x ∈ MOVES, outcome x (choose_ai_move p r).1.2 = "win" →
      x = (choose_ai_move p r).1.1 := by
  rw [choose_ai_move_fst, choose_ai_move_pred, choose_ai_move_snd]
  have hpm := predict_next_mem p r hwf
  have hpm2 : (predict_next_user_move p r).1 = "rock" ∨
      (predict_next_user_move p r).1 = "paper" ∨
      (predict_next_user_move p r).1 = "scissors" := by simpa [MOVES] using hpm
  refine ⟨rfl, rfl, hpm, ?_, ?_⟩
  · rcases hpm2 with h | h | h <;> rw [h] <;> decide
  · intro x hx hwin
    have hx2 : x = "rock" ∨ x = "paper" ∨ x = "scissors" := by simpa [MOVES] using hx
    rcases hpm2 with h | h | h <;> rw [h] at hwin ⊢ <;>
      rcases hx2 with rfl | rfl | rfl <;> revert hwin <;> decide

theorem choose_ai_move_counters_prediction_witness :
    outcome (choose_ai_move (mkPredictor 3) (0 : Fin 3)).1.1
      (choose_ai_move (mkPredictor 3) (0 : Fin 3)).1.2 = "win" :=
  (choose_ai_move_counters_prediction (mkPredictor 3) 0
    (by unfold WF; decide)).2.2.2.1

/-- Claim C1: the play operation computes the AI move and the outcome from the
model state as it was before the input move is recorded: for every model state
and valid input move, the response's AI move and prediction come from
`choose_ai_move` on the pre-call state, the result is the outcome of the input
move against that AI move, and the new state is `record_user_move` applied to
the pre-call state (recording happens last and is the only mutation). -/
theorem play_computes_choice_before_recording (p : MarkovPredictor)
    (m : String) (r : Fin 3) (hm : m ∈ MOVES) :
    play p m r = some
      (⟨m, (choose_ai_move p r).1.1,
        outcome m (choose_ai_move p r).1.1,
        (choose_ai_move p r).1.2,
        (record_user_move p m).history.length,
        (record_user_move p m).transitions.length⟩,
       record_user_move p m) := by
  unfold play
  rw [if_pos hm, choose_ai_move_eq]

theorem play_computes_choice_before_recording_witness :
    play (mkPredictor 3) "rock" (0 : Fin 3) = some
      (⟨"rock", (choose_ai_move (mkPredictor 3) (0 : Fin 3)).1.1,
        outcome "rock" (choose_ai_move (mkPredictor 3) (0 : Fin 3)).1.1,
        (choose_ai_move (mkPredictor 3) (0 : Fin 3)).1.2,
        (record_user_move (mkPredictor 3) "rock").history.length,
        (record_user_move (mkPredictor 3) "rock").transitions.length⟩,
       record_user_move (mkPredictor 3) "rock") :=
  play_computes_choice_before_recording (mkPredictor 3) "rock" 0 (by decide)

/-- Claim C2: record_observation bumps a transition count only when the history
held at least `order` entries before the append, and the key is exactly the
last `order` history entries before the append; concretely, from an empty
order-3 model, recording rock, rock, rock leaves the table empty, and the
subsequent paper sets the count at key (rock, rock, rock) for paper to 1. -/
theorem record_transition_boundary (p : MarkovPredictor) (m : String)
    (hm : m ∈ MOVES) :
    (p.history.length < p.order →
      (record_user_move p m).transitions = p.transitions) ∧
    (1 ≤ p.order → p.order ≤ p.history.length → ∀ k x,
      getCount (record_user_move p m).transitions k x =
        getCount p.transitions k x +
          (if k = p.history.drop (p.history.length - p.order) ∧ x = m
           then 1 else 0)) ∧
    (runRecords (mkPredictor 3) ["rock", "rock", "rock"]).transitions = [] ∧
    getCount (runRecords (mkPredictor 3)
        ["rock", "rock", "rock", "paper"]).transitions
      ["rock", "rock", "rock"] "paper" = 1 := by
  refine ⟨?_, ?_, rfl, by decide⟩
  · intro hlt
    rw [record_user_move_valid_eq p m hm]
    show (if p.order ≤ p.history.length then
        bumpTrans p.transitions (lastSlice p.order p.history) m
      else p.transitions) = p.transitions
    rw [if_neg (by omega)]
  · intro h1 hle k x
    rw [record_user_move_valid_eq p m hm]
    show getCount (if p.order ≤ p.history.length then
        bumpTrans p.transitions (lastSlice p.order p.history) m
      else p.transitions) k x = _
    rw [if_pos hle, lastSlice_eq_drop p.order p.history h1, bumpTrans_getCount]

theorem record_transition_boundary_witness :
    getCount (record_user_move pWarm "paper").transitions
      ["rock", "rock", "rock"] "paper" = 1 := by
  have h := (record_transition_boundary pWarm "paper" (by decide)).2.1
    (by decide) (by decide) ["rock", "rock", "rock"] "paper"
  rw [h]
  decide

/-- Claim C8: the history never exceeds the capacity of 50 for any recorded
sequence, and once the capacity is reached, each further valid observation
evicts exactly the single oldest entry, leaving the length at 50. -/
theorem history_capacity_fifo (o : Nat) (ms : List String)
    (p : MarkovPredictor) (m : String) (hm : m ∈ MOVES)
    (hcap : p.history.length = 50) :
    (runRecords (mkPredictor o) ms).history.length ≤ 50 ∧
    (record_user_move p m).history = p.history.tail ++ [m] ∧
    (record_user_move p m).history.length = 50 := by
  refine ⟨runRecords_history_le ms (mkPredictor o) (by simp [mkPredictor]), ?_, ?_⟩
  · rw [record_user_move_valid_eq p m hm]
    show dequeAppend p.history m = p.history.tail ++ [m]
    rcases hh : p.history with _ | ⟨a, t⟩
    · rw [hh] at hcap
      simp at hcap
    · have ht : t.length = 49 := by
        rw [hh] at hcap
        simp only [List.length_cons] at hcap
        omega
      unfold dequeAppend
      rw [show (a :: t) ++ [m] = a :: (t ++ [m]) from rfl]
      have hlen2 : (a :: (t ++ [m])).length - 50 = 1 := by
        simp only [List.length_cons, List.length_append, List.length_nil]
        omega
      rw [hlen2]
      rfl
  · rw [record_user_move_valid_eq p m hm]
    show (dequeAppend p.history m).length = 50
    rw [dequeAppend_length]
    omega

theorem history_capacity_fifo_witness :
    (record_user_move pCap "paper").history = pCap.history.tail ++ ["paper"] :=
  (history_capacity_fifo 3 [] pCap "paper" (by decide)
    (by simp [pCap])).2.1

/-- Claim C3: for every warm well-formed model (history length at least
`order`, with `order` positive), predict_next returns a valid move; when the
state key formed from the last `order` history entries is present in the
transition table with counts, the result is the move with the highest count
for that key, taking the first maximum in the count table's enumeration order
on ties; when the key is absent or has no counts, the result is the move with
the highest number of occurrences across the entire history, taking the first
maximum over the fixed move enumeration on ties. -/
theorem predict_next_argmax_spec (p : MarkovPredictor) (r : Fin 3)
    (hwf : WF p) (h1 : 1 ≤ p.order) (hlen : p.order ≤ p.history.length) :
    (∀ counts,
        assocGet p.transitions (p.history.drop (p.history.length - p.order)) =
          some counts →
        counts ≠ [] →
        isFirstMax (fun m => (assocGet counts m).getD 0) (keysOf counts)
          (predict_next_user_move p r).1) ∧
    ((assocGet p.transitions (p.history.drop (p.history.length - p.order)) = none ∨
      assocGet p.transitions (p.history.drop (p.history.length - p.order)) =
        some []) →
      isFirstMax (fun m => p.history.count m) MOVES
        (predict_next_user_move p r).1) ∧
    (predict_next_user_move p r).1 ∈ MOVES := by
  have hkey : lastSlice p.order p.history =
      p.history.drop (p.history.length - p.order) :=
    lastSlice_eq_drop p.order p.history h1
  have hwarm := predict_warm p r hlen
  rw [hkey] at hwarm
  have hne : p.history ≠ [] := by
    intro h0
    rw [h0] at hlen
    simp only [List.length_nil] at hlen
    omega
  have hfb : fallbackFreq p.history r = pyMax (fun m => p.history.count m) MOVES := by
    unfold fallbackFreq
    rw [if_pos (sumFreq_pos p.history hne hwf.1)]
  refine ⟨?_, ?_, predict_next_mem p r hwf⟩
  · intro counts hc hcne
    rw [hwarm, hc]
    show isFirstMax (fun m => (assocGet counts m).getD 0) (keysOf counts)
      (if counts = [] then fallbackFreq p.history r
       else pyMax (fun m => (assocGet counts m).getD 0) (keysOf counts))
    rw [if_neg hcne]
    exact pyMax_isFirstMax _ _ (fun h0 => hcne (List.map_eq_nil_iff.mp h0))
  · intro hdisj
    rw [hwarm]
    rcases hdisj with hc | hc <;> rw [hc] <;>
      show isFirstMax (fun m => p.history.count m) MOVES (fallbackFreq p.history r) <;>
      rw [hfb] <;>
      exact pyMax_isFirstMax _ _ (by decide)

theorem predict_next_argmax_spec_witness :
    isFirstMax (fun m => pW4.history.count m) MOVES
      (predict_next_user_move pW4 (0 : Fin 3)).1 :=
  (predict_next_argmax_spec pW4 0 (by unfold WF; decide) (by decide)
    (by decide)).2.1 (Or.inl (by decide))

/-- Claim C10: a model reached by recording a sequence of moves that is warm
(history length at least its positive `order`) predicts deterministically: the
predicted move does not depend on the random draw, so the random-choice
branches are never taken (the total move-frequency sum over the history is
strictly positive). -/
theorem warm_predict_deterministic (o : Nat) (ms : List String)
    (h1 : 1 ≤ o)
    (hw : o ≤ (runRecords (mkPredictor o) ms).history.length)
    (r r' : Fin 3) :
    (predict_next_user_move (runRecords (mkPredictor o) ms) r).1 =
      (predict_next_user_move (runRecords (mkPredictor o) ms) r').1 := by
  set p := runRecords (mkPredictor o) ms with hp
  have hord : p.order = o := runRecords_order ms (mkPredictor o)
  have hv : ∀ x ∈ p.history, x ∈ MOVES :=
    runRecords_history_valid ms (mkPredictor o) (by simp [mkPredictor])
  have hlen : p.order ≤ p.history.length := by
    rw [hord]
    exact hw
  have hne : p.history ≠ [] := by
    intro h0
    rw [h0] at hlen
    simp only [List.length_nil] at hlen
    omega
  have hfb : fallbackFreq p.history r = fallbackFreq p.history r' := by
    unfold fallbackFreq
    rw [if_pos (sumFreq_pos p.history hne hv), if_pos (sumFreq_pos p.history hne hv)]
  rw [predict_warm p r hlen, predict_warm p r' hlen]
  cases hc : assocGet p.transitions (lastSlice p.order p.history) with
  | none => exact hfb
  | some counts =>
    show (if counts = [] then fallbackFreq p.history r
          else pyMax (fun m => (assocGet counts m).getD 0) (keysOf counts)) =
         (if counts = [] then fallbackFreq p.history r'
          else pyMax (fun m => (assocGet counts m).getD 0) (keysOf counts))
    by_cases hce : counts = []
    · rw [if_pos hce, if_pos hce]
      exact hfb
    · rw [if_neg hce, if_neg hce]

theorem warm_predict_deterministic_witness :
    (predict_next_user_move (runRecords (mkPredictor 3)
        ["rock", "rock", "rock"]) (0 : Fin 3)).1 =
      (predict_next_user_move (runRecords (mkPredictor 3)
        ["rock", "rock", "rock"]) (1 : Fin 3)).1 :=
  warm_predict_deterministic 3 ["rock", "rock", "rock"] (by decide) (by decide) 0 1
